import Mathlib

/-!
Verification development for the evedata market pipeline.

The pipeline has two core stages:
. the Quote Reducer (scripts/fetch_current_orders.py, function process_orders),
  which reduces a raw sell-order table to one best-price row plus a supply
  figure per (type_id, station_id) pair, discarding items seen at fewer than
  two hubs; and
. the Pair Generator (scripts/generate_trade_pairs.py, function
  generate_trade_pairs), which enumerates directional station pairs per item
  and keeps those whose relative price difference clears a 10 percent
  threshold, optionally enriching rows with historical statistics
  (add_historical_data) and wrapped by a main driver that distinguishes a
  missing input file from an empty result.

Prices are modelled as rationals (the spec allows fixed-point decimals),
quantities as naturals, identifiers as integers, and dates as integers
ordered chronologically.  Pandas data frames become lists of structures;
groupby with its default ascending key sort becomes an explicit merge sort
of deduplicated keys; iloc selection becomes head of a filtered list.
-/

namespace EveData

/-- One raw sell order row, after the is_buy_order and hub filters:
columns price, type_id, volume_remain, station_id. -/
structure Order where
  price : ℚ
  type_id : ℤ
  volume_remain : ℕ
  station_id : ℤ
deriving Repr, DecidableEq

/-- One output row of process_orders: the minimum-price (headline) order of a
(type_id, station_id) group together with the computed supply column. -/
structure QuoteRow where
  price : ℚ
  type_id : ℤ
  volume_remain : ℕ
  station_id : ℤ
  supply : ℕ
deriving Repr, DecidableEq

/-! ### Quote Reducer: scripts/fetch_current_orders.py, process_orders -/

/-- Number of distinct station_id values carrying a given type_id, as in
df.groupby of type_id with nunique of station_id. -/
def nuniqueStations (df : List Order) (t : ℤ) : ℕ :=
  (((df.filter fun o => o.type_id == t).map Order.station_id).dedup).length

/-- Step 1 of process_orders: keep only rows whose type_id is present at more
than one hub (valid_type_ids filter). -/
def validTypeFilter (df : List Order) : List Order :=
  df.filter fun o => 1 < nuniqueStations df o.type_id

/-- The rows of a (type_id, station_id) group, in input order, as produced by
groupby on the two key columns. -/
def keyGroup (df : List Order) (t s : ℤ) : List Order :=
  df.filter fun o => o.type_id == t && o.station_id == s

/-- The headline order of a non-empty group: the first row attaining the
minimum price, as selected by idxmin on the price column. -/
def headlineIn (o : Order) (rest : List Order) : Order :=
  rest.foldl (fun b x => if x.price < b.price then x else b) o

/-- The minimum price of a non-empty group, min of the price column. -/
def minPriceIn (o : Order) (rest : List Order) : ℚ :=
  rest.foldl (fun m x => min m x.price) o.price

/-- The configured depth margin: the source writes the threshold as
min_price * 1.1, that is min_price * (1 + depthMargin). -/
def depthMargin : ℚ := 1/10

/-- Supply of a group at a given depth margin: the sum of volume_remain over
the orders priced at or below min_price * (1 + margin).  The source fixes
margin = 1/10, writing the threshold as min_price * 1.1. -/
def supplyWithin (margin : ℚ) : List Order → ℕ
  | [] => 0
  | o :: rest =>
    (((o :: rest).filter fun x => x.price ≤ minPriceIn o rest * (1 + margin)).map
      Order.volume_remain).sum

/-- Boolean ascending order on (type_id, station_id) keys, the default group
key order of pandas groupby. -/
def keyLE (a b : ℤ × ℤ) : Bool :=
  a.1 < b.1 || (a.1 == b.1 && a.2 ≤ b.2)

/-- Ordered insertion with respect to a boolean comparison. -/
def insertBy (le : α → α → Bool) (a : α) : List α → List α
  | [] => [a]
  | b :: l => if le a b then a :: b :: l else b :: insertBy le a l

/-- Insertion sort with respect to a boolean comparison, modelling the
ascending group key order of pandas groupby. -/
def sortBy (le : α → α → Bool) : List α → List α
  | [] => []
  | a :: l => insertBy le a (sortBy le l)

/-- The distinct (type_id, station_id) keys of the table, in ascending order:
the iteration order of groupby over the two key columns. -/
def orderKeys (df : List Order) : List (ℤ × ℤ) :=
  sortBy keyLE ((df.map fun o => (o.type_id, o.station_id)).dedup)

/-- The quote row emitted for one non-empty group: the headline (minimum
price) order with the supply column appended. -/
def reduceGroup (o : Order) (rest : List Order) : QuoteRow :=
  { price := (headlineIn o rest).price
    type_id := (headlineIn o rest).type_id
    volume_remain := (headlineIn o rest).volume_remain
    station_id := (headlineIn o rest).station_id
    supply := supplyWithin depthMargin (o :: rest) }

/-- process_orders of scripts/fetch_current_orders.py: discard single-hub
items, then per (type_id, station_id) group emit the minimum-price order
with a supply column (sum of volume_remain within 10 percent of the
minimum price, boundary inclusive). -/
def processOrders (df : List Order) : List QuoteRow :=
  (orderKeys (validTypeFilter df)).filterMap fun k =>
    match keyGroup (validTypeFilter df) k.1 k.2 with
    | [] => none
    | o :: rest => some (reduceGroup o rest)

/-! ### Pair Generator: scripts/generate_trade_pairs.py, generate_trade_pairs -/

/-- One emitted trade pair row, exactly the dictionary built in
generate_trade_pairs: identifiers, the two prices, the two headline
volumes and the two supply figures.  There is no profit margin column. -/
structure TradeRow where
  type_id : ℤ
  start_station_id : ℤ
  dest_station_id : ℤ
  price_start : ℚ
  price_dest : ℚ
  volume_remain_start : ℕ
  volume_remain_dest : ℕ
  supply_start : ℕ
  supply_dest : ℕ
deriving Repr, DecidableEq

/-- PROFIT_MARGIN_THRESHOLD = 0.1 in scripts/generate_trade_pairs.py. -/
def marginThreshold : ℚ := 1/10

/-- Distinct values of a list keeping first occurrences in order, as the
pandas unique method does; seen accumulates the values already kept. -/
def uniqueFirstAux (seen : List ℤ) : List ℤ → List ℤ
  | [] => []
  | a :: rest =>
    if a ∈ seen then uniqueFirstAux seen rest
    else a :: uniqueFirstAux (a :: seen) rest

/-- Distinct values of a list keeping first occurrences in order. -/
def uniqueFirst (l : List ℤ) : List ℤ :=
  uniqueFirstAux [] l

/-- The distinct type_id values of the quote table in ascending order: the
iteration order of groupby over type_id. -/
def uniqueTypeIds (df : List QuoteRow) : List ℤ :=
  sortBy (fun a b => a ≤ b) ((df.map QuoteRow.type_id).dedup)

/-- All ordered pairs of distinct elements drawn from a duplicate-free list,
in the order produced by itertools.permutations with r = 2. -/
def permPairs (l : List ℤ) : List (ℤ × ℤ) :=
  l.flatMap fun a => (l.filter fun b => b != a).map fun b => (a, b)

/-- The first quote of the item group at a given station, iloc 0 of the
station filter. -/
def firstAtStation (group : List QuoteRow) (s : ℤ) : Option QuoteRow :=
  (group.filter fun q => q.station_id == s).head?

/-- The trade pair dictionary built from a start quote and a destination
quote (the group key type_id equals the type_id of the start quote). -/
def tradeRowOf (a b : QuoteRow) : TradeRow :=
  { type_id := a.type_id
    start_station_id := a.station_id
    dest_station_id := b.station_id
    price_start := a.price
    price_dest := b.price
    volume_remain_start := a.volume_remain
    volume_remain_dest := b.volume_remain
    supply_start := a.supply
    supply_dest := b.supply }

/-- The profit margin the source computes for a candidate pair:
price_diff_pct = (dest price - start price) / start price. -/
def marginOf (a b : QuoteRow) : ℚ :=
  (b.price - a.price) / a.price

/-- The loop body after the candidate pair is fetched: compute
price_diff_pct and append the row only when it reaches the threshold. -/
def emitPair (a b : QuoteRow) : Option TradeRow :=
  if marginThreshold ≤ marginOf a b then some (tradeRowOf a b) else none

/-- The candidate (start, destination) quote pairs evaluated for one item
group: items at fewer than two stations are skipped, stations are
enumerated by permutations over the unique station list, and each station
is resolved to the first matching quote row (iloc 0). -/
def itemPairs (df : List QuoteRow) (t : ℤ) : List (QuoteRow × QuoteRow) :=
  if (uniqueFirst ((df.filter fun q => q.type_id == t).map QuoteRow.station_id)).length < 2
  then []
  else
    (permPairs (uniqueFirst ((df.filter fun q => q.type_id == t).map
        QuoteRow.station_id))).filterMap fun p =>
      match firstAtStation (df.filter fun q => q.type_id == t) p.1,
          firstAtStation (df.filter fun q => q.type_id == t) p.2 with
      | some a, some b => some (a, b)
      | _, _ => none

/-- All candidate (start, destination) quote pairs the generator loop
evaluates, items in ascending type_id order. -/
def candidatePairs (df : List QuoteRow) : List (QuoteRow × QuoteRow) :=
  (uniqueTypeIds df).flatMap (itemPairs df)

/-- A quote table is key unique when no (type_id, station_id) pair occurs on
two different rows; the output of the Quote Reducer has this shape. -/
def KeyUnique (df : List QuoteRow) : Prop :=
  ∀ q1 ∈ df, ∀ q2 ∈ df,
    q1.type_id = q2.type_id → q1.station_id = q2.station_id → q1 = q2

/-- generate_trade_pairs of scripts/generate_trade_pairs.py on the quote
table: every evaluated candidate pair is kept exactly when its computed
margin reaches PROFIT_MARGIN_THRESHOLD, in enumeration order; no sorting
is applied afterwards. -/
def generateTradePairs (df : List QuoteRow) : List TradeRow :=
  (candidatePairs df).filterMap fun p => emitPair p.1 p.2

/-- The margin recomputed from an emitted row. -/
def rowMargin (r : TradeRow) : ℚ :=
  (r.price_dest - r.price_start) / r.price_start

/-- Sortedness by profit margin, descending, as the spec describes the
final TradePair table. -/
def sortedByMarginDesc (l : List TradeRow) : Prop :=
  List.Pairwise (fun a b => rowMargin b ≤ rowMargin a) l

instance (l : List TradeRow) : Decidable (sortedByMarginDesc l) := by
  unfold sortedByMarginDesc
  infer_instance

/-! ### Historical enrichment: add_historical_data and the main driver -/

/-- One historical price record (historic_prices.csv): key columns type_id
and location_id, a date, and the sell price statistics joined onto the
destination station.  Dates are modelled as integers ordered
chronologically. -/
structure PriceRec where
  type_id : ℤ
  location_id : ℤ
  date : ℤ
  sell_price_low : ℚ
  sell_price_avg : ℚ
deriving Repr, DecidableEq

/-- One historical volume record (historic_volumes.csv). -/
structure VolumeRec where
  type_id : ℤ
  location_id : ℤ
  date : ℤ
  sell_volume_avg : ℚ
deriving Repr, DecidableEq

/-- A trade pair row after enrichment: the merged historical columns are
null (none) when the left join found no match. -/
structure EnrichedRow where
  base : TradeRow
  sell_price_low_dest : Option ℚ
  sell_price_avg_dest : Option ℚ
  sell_volume_avg_dest : Option ℚ
deriving Repr, DecidableEq

/-- The record a stable sort on a date key descending followed by
drop_duplicates keeping the first row leaves for a group: the
earliest-input record among those with the maximal date, none when the
group is empty. -/
def pickLatestBy (d : α → ℤ) : List α → Option α
  | [] => none
  | x :: rest =>
    match pickLatestBy d rest with
    | none => some x
    | some m => if d x < d m then some m else some x

/-- The historical price record kept for a (type_id, location_id) key by
sort_values on date descending followed by drop_duplicates keeping the
first, none when the key is absent. -/
def mostRecentPrice (recs : List PriceRec) (t l : ℤ) : Option PriceRec :=
  pickLatestBy PriceRec.date (recs.filter fun r => r.type_id == t && r.location_id == l)

/-- The volume analogue of mostRecentPrice. -/
def mostRecentVolume (recs : List VolumeRec) (t l : ℤ) : Option VolumeRec :=
  pickLatestBy VolumeRec.date (recs.filter fun r => r.type_id == t && r.location_id == l)

/-- add_historical_data of scripts/generate_trade_pairs.py: left-join the
deduplicated price and volume tables onto (type_id, dest_station_id);
with a key-unique right side the pandas merge is a per-row lookup, so no
trade pair row is dropped or duplicated. -/
def addHistoricalData (tp : List TradeRow) (ps : List PriceRec)
    (vs : List VolumeRec) : List EnrichedRow :=
  tp.map fun r =>
    { base := r
      sell_price_low_dest :=
        (mostRecentPrice ps r.type_id r.dest_station_id).map PriceRec.sell_price_low
      sell_price_avg_dest :=
        (mostRecentPrice ps r.type_id r.dest_station_id).map PriceRec.sell_price_avg
      sell_volume_avg_dest :=
        (mostRecentVolume vs r.type_id r.dest_station_id).map VolumeRec.sell_volume_avg }

/-- The result data frame of generate_trade_pairs: enrichment happens only
when both historical tables loaded; otherwise the plain pair table is
returned unchanged (the enriched columns are absent, not null). -/
inductive GenOutput where
  | plain : List TradeRow → GenOutput
  | enriched : List EnrichedRow → GenOutput
deriving Repr, DecidableEq

/-- Number of rows of the result data frame. -/
def genLength : GenOutput → ℕ
  | .plain l => l.length
  | .enriched l => l.length

/-- The branch structure of generate_trade_pairs around enrichment:
load_historic_data yields none for a missing or unreadable historical
source, and enrichment runs only when both tables are present. -/
def generateFull (df : List QuoteRow) (prices : Option (List PriceRec))
    (volumes : Option (List VolumeRec)) : GenOutput :=
  match prices, volumes with
  | some ps, some vs => .enriched (addHistoricalData (generateTradePairs df) ps vs)
  | _, _ => .plain (generateTradePairs df)

/-- Outcome of the main driver of scripts/generate_trade_pairs.py: either
sys.exit(1), or a written trade_analysis.csv artifact. -/
inductive PipelineResult where
  | exitFailure : PipelineResult
  | wroteOutput : GenOutput → PipelineResult
deriving Repr, DecidableEq

/-- main of scripts/generate_trade_pairs.py: a missing current_orders.csv
(load_current_orders returning none) exits with status 1; an empty orders
table makes generate_trade_pairs return none and an empty pair table has
zero rows, and in both cases an empty well-formed artifact is written;
otherwise the generated table is written. -/
def mainPipeline (orders : Option (List QuoteRow)) (prices : Option (List PriceRec))
    (volumes : Option (List VolumeRec)) : PipelineResult :=
  match orders with
  | none => .exitFailure
  | some df =>
    if df.length = 0 then .wroteOutput (.plain [])
    else
      let out := generateFull df prices volumes
      if genLength out = 0 then .wroteOutput (.plain [])
      else .wroteOutput out

instance (df : List QuoteRow) : Decidable (KeyUnique df) := by
  unfold KeyUnique
  infer_instance

/-! ### Example tables used for concrete evaluations -/

/-- Scenario A of the spec: item 10 with orders of price 100 (qty 5) and 105
(qty 3) at hub 1 and a single order of price 150 (qty 2) at hub 2. -/
def ordersA : List Order := [⟨100, 10, 5, 1⟩, ⟨105, 10, 3, 1⟩, ⟨150, 10, 2, 2⟩]

/-- The quote the reducer emits for item 10 at hub 1 on ordersA. -/
def quoteA1 : QuoteRow := ⟨100, 10, 5, 1, 8⟩

/-- Two items at two hubs whose emitted pairs appear in ascending item order
with margins 0.2 and then 0.5. -/
def quotesB : List QuoteRow :=
  [⟨100, 1, 1, 1, 1⟩, ⟨120, 1, 1, 2, 1⟩, ⟨100, 2, 1, 1, 1⟩, ⟨150, 2, 1, 2, 1⟩]

/-- A key-unique quote for item 7 at hub 1. -/
def qC1 : QuoteRow := ⟨100, 7, 4, 1, 9⟩

/-- A key-unique quote for item 7 at hub 2. -/
def qC2 : QuoteRow := ⟨150, 7, 2, 2, 3⟩

/-- A small key-unique quote table for item 7 at hubs 1 and 2. -/
def quotesC : List QuoteRow := [qC1, qC2]

/-- The trade pair row generated from qC1 to qC2. -/
def rowD : TradeRow := tradeRowOf qC1 qC2

/-- Example historical price table for the (7, 2) key with two dates. -/
def pricesD : List PriceRec := [⟨7, 2, 5, 90, 95⟩, ⟨7, 2, 9, 80, 85⟩]

/-- Example historical volume table for the (7, 2) key. -/
def volumesD : List VolumeRec := [⟨7, 2, 9, 40⟩]

/-- The enrichment of rowD by pricesD and volumesD. -/
def rowDEnriched : EnrichedRow := ⟨rowD, some 80, some 85, some 40⟩

/-! ### General list lemmas -/

theorem mem_insertBy {le : α → α → Bool} {a x : α} {l : List α} :
    x ∈ insertBy le a l ↔ x = a ∨ x ∈ l := by
  induction l with
  | nil => simp [insertBy]
  | cons b l ih =>
    simp only [insertBy]
    split
    · simp
    · simp only [List.mem_cons, ih]
      tauto

theorem mem_sortBy {le : α → α → Bool} {x : α} {l : List α} :
    x ∈ sortBy le l ↔ x ∈ l := by
  induction l with
  | nil => simp [sortBy]
  | cons a l ih => simp [sortBy, mem_insertBy, ih]

theorem pairwise_insertBy {le : α → α → Bool}
    (htrans : ∀ a b c, le a b = true → le b c = true → le a c = true)
    (htot : ∀ a b, le a b = true ∨ le b a = true)
    {a : α} {l : List α} (h : l.Pairwise fun x y => le x y = true) :
    (insertBy le a l).Pairwise fun x y => le x y = true := by
  induction l with
  | nil => simp [insertBy]
  | cons b l ih =>
    rcases List.pairwise_cons.mp h with ⟨hb, hl⟩
    simp only [insertBy]
    split
    · rename_i hab
      refine List.pairwise_cons.mpr ⟨?_, h⟩
      intro y hy
      rcases List.mem_cons.mp hy with rfl | hy2
      · exact hab
      · exact htrans _ _ _ hab (hb y hy2)
    · rename_i hab
      have hba : le b a = true := by
        rcases htot a b with h1 | h1
        · exact absurd h1 hab
        · exact h1
      refine List.pairwise_cons.mpr ⟨?_, ih hl⟩
      intro y hy
      rcases mem_insertBy.mp hy with rfl | hy2
      · exact hba
      · exact hb y hy2

theorem pairwise_sortBy {le : α → α → Bool}
    (htrans : ∀ a b c, le a b = true → le b c = true → le a c = true)
    (htot : ∀ a b, le a b = true ∨ le b a = true) (l : List α) :
    (sortBy le l).Pairwise fun x y => le x y = true := by
  induction l with
  | nil => simp [sortBy]
  | cons a l ih => exact pairwise_insertBy htrans htot ih

theorem mem_uniqueFirstAux {seen l : List ℤ} {x : ℤ} :
    x ∈ uniqueFirstAux seen l ↔ x ∈ l ∧ x ∉ seen := by
  induction l generalizing seen with
  | nil => simp [uniqueFirstAux]
  | cons a l ih =>
    simp only [uniqueFirstAux]
    split
    · rename_i ha
      rw [ih]
      simp only [List.mem_cons]
      constructor
      · rintro ⟨h1, h2⟩
        exact ⟨Or.inr h1, h2⟩
      · rintro ⟨h1 | h1, h2⟩
        · exact absurd (h1 ▸ ha) h2
        · exact ⟨h1, h2⟩
    · rename_i ha
      simp only [List.mem_cons, ih, List.mem_cons, not_or]
      constructor
      · rintro (rfl | ⟨h1, h2, h3⟩)
        · exact ⟨Or.inl rfl, ha⟩
        · exact ⟨Or.inr h1, h3⟩
      · rintro ⟨h1 | h1, h2⟩
        · exact Or.inl h1
        · by_cases hxa : x = a
          · exact Or.inl hxa
          · exact Or.inr ⟨h1, hxa, h2⟩

theorem mem_uniqueFirst {l : List ℤ} {x : ℤ} : x ∈ uniqueFirst l ↔ x ∈ l := by
  simp [uniqueFirst, mem_uniqueFirstAux]

theorem nodup_uniqueFirstAux (seen l : List ℤ) : (uniqueFirstAux seen l).Nodup := by
  induction l generalizing seen with
  | nil => simp [uniqueFirstAux]
  | cons a l ih =>
    simp only [uniqueFirstAux]
    split
    · exact ih seen
    · refine List.nodup_cons.mpr ⟨?_, ih (a :: seen)⟩
      intro hmem
      exact (mem_uniqueFirstAux.mp hmem).2 (List.mem_cons_self a seen)

theorem nodup_uniqueFirst (l : List ℤ) : (uniqueFirst l).Nodup :=
  nodup_uniqueFirstAux [] l

theorem mem_permPairs {l : List ℤ} {p : ℤ × ℤ} :
    p ∈ permPairs l ↔ p.1 ∈ l ∧ p.2 ∈ l ∧ p.2 ≠ p.1 := by
  obtain ⟨a, b⟩ := p
  simp only [permPairs, List.mem_flatMap, List.mem_map, List.mem_filter, bne_iff_ne]
  constructor
  · rintro ⟨x, hx, y, ⟨hy, hne⟩, heq⟩
    obtain ⟨rfl, rfl⟩ := Prod.mk.injEq .. ▸ heq
    exact ⟨hx, hy, hne⟩
  · rintro ⟨ha, hb, hne⟩
    exact ⟨a, ha, b, ⟨hb, hne⟩, rfl⟩

theorem two_le_length_of_nodup {l : List ℤ} {x y : ℤ} (hl : l.Nodup)
    (hx : x ∈ l) (hy : y ∈ l) (hne : x ≠ y) : 2 ≤ l.length := by
  match l with
  | [] => simp at hx
  | [a] =>
    simp only [List.mem_singleton] at hx hy
    exact absurd (hx.trans hy.symm) hne
  | a :: b :: rest => simp [Nat.succ_le_succ, Nat.le_add_left]

theorem pairwise_flatMap_of {R : β → β → Prop} {f : α → List β} {l : List α}
    (hl : l.Pairwise fun s t => ∀ x ∈ f s, ∀ y ∈ f t, R x y)
    (hin : ∀ s ∈ l, (f s).Pairwise R) :
    (l.flatMap f).Pairwise R := by
  induction l with
  | nil => simp
  | cons a l ih =>
    rcases List.pairwise_cons.mp hl with ⟨ha, hl2⟩
    simp only [List.flatMap_cons]
    rw [List.pairwise_append]
    refine ⟨hin a (List.mem_cons_self a l), ih hl2 (fun s hs => hin s (List.mem_cons_of_mem a hs)), ?_⟩
    intro x hx y hy
    rcases List.mem_flatMap.mp hy with ⟨s, hs, hys⟩
    exact ha s hs x hx y hys

theorem pairwise_filterMap_of {R : γ → γ → Prop} {f : β → Option γ} {l : List β}
    (h : l.Pairwise fun s t => ∀ x, f s = some x → ∀ y, f t = some y → R x y) :
    (l.filterMap f).Pairwise R := by
  induction l with
  | nil => simp
  | cons a l ih =>
    rcases List.pairwise_cons.mp h with ⟨ha, hl⟩
    cases hfa : f a with
    | none => simpa [List.filterMap_cons, hfa] using ih hl
    | some x =>
      simp only [List.filterMap_cons, hfa]
      refine List.pairwise_cons.mpr ⟨?_, ih hl⟩
      intro y hy
      rcases List.mem_filterMap.mp hy with ⟨s, hs, hys⟩
      exact ha s hs x hfa y hys

theorem sum_filter_le_of_imp (l : List Order) (p q : Order → Bool)
    (h : ∀ x ∈ l, p x = true → q x = true) :
    ((l.filter p).map Order.volume_remain).sum ≤
      ((l.filter q).map Order.volume_remain).sum := by
  induction l with
  | nil => simp
  | cons a l ih =>
    have ih2 := ih fun x hx => h x (List.mem_cons_of_mem a hx)
    by_cases hp : p a = true
    · have hqa := h a (List.mem_cons_self a l) hp
      simp only [List.filter_cons, hp, hqa, if_true, List.map_cons, List.sum_cons]
      exact Nat.add_le_add_left ih2 _
    · simp only [List.filter_cons, if_neg hp]
      by_cases hq : q a = true
      · simp only [hq, if_true, List.map_cons, List.sum_cons]
        exact le_trans ih2 (Nat.le_add_left _ _)
      · simp only [hq, if_false]
        exact ih2

/-! ### Quote Reducer lemmas -/

theorem foldl_min_le (l : List Order) (q : ℚ) :
    (l.foldl (fun m x => min m x.price) q ≤ q) ∧
      ∀ x ∈ l, l.foldl (fun m x => min m x.price) q ≤ x.price := by
  induction l generalizing q with
  | nil => simp
  | cons a l ih =>
    simp only [List.foldl_cons]
    constructor
    · exact le_trans (ih (min q a.price)).1 (min_le_left _ _)
    · intro x hx
      rcases List.mem_cons.mp hx with rfl | hx2
      · exact le_trans (ih (min q x.price)).1 (min_le_right _ _)
      · exact (ih (min q a.price)).2 x hx2

theorem minPriceIn_le (o : Order) (rest : List Order) :
    ∀ x ∈ o :: rest, minPriceIn o rest ≤ x.price := by
  intro x hx
  rcases List.mem_cons.mp hx with rfl | hx2
  · exact (foldl_min_le rest x.price).1
  · exact (foldl_min_le rest o.price).2 x hx2

theorem headlineIn_mem (o : Order) (rest : List Order) :
    headlineIn o rest ∈ o :: rest := by
  induction rest generalizing o with
  | nil => simp [headlineIn]
  | cons a l ih =>
    have h : headlineIn o (a :: l) = headlineIn (if a.price < o.price then a else o) l := rfl
    rw [h]
    rcases List.mem_cons.mp (ih (if a.price < o.price then a else o)) with h1 | h1
    · rw [h1]
      split
      · exact List.mem_cons_of_mem _ (List.mem_cons_self _ _)
      · exact List.mem_cons_self _ _
    · exact List.mem_cons_of_mem _ (List.mem_cons_of_mem _ h1)

theorem headlineIn_price (o : Order) (rest : List Order) :
    (headlineIn o rest).price = minPriceIn o rest := by
  induction rest generalizing o with
  | nil => rfl
  | cons a l ih =>
    have h1 : headlineIn o (a :: l) = headlineIn (if a.price < o.price then a else o) l := rfl
    have hp : (if a.price < o.price then a else o).price = min o.price a.price := by
      split
      · rename_i hlt
        exact (min_eq_right hlt.le).symm
      · rename_i hlt
        exact (min_eq_left (not_lt.mp hlt)).symm
    have h2 : minPriceIn o (a :: l) = minPriceIn (if a.price < o.price then a else o) l := by
      simp only [minPriceIn, List.foldl_cons, hp]
    rw [h1, h2, ih]

theorem mem_keyGroup {df : List Order} {t s : ℤ} {x : Order} :
    x ∈ keyGroup df t s ↔ x ∈ df ∧ x.type_id = t ∧ x.station_id = s := by
  simp [keyGroup, List.mem_filter]

theorem mem_validTypeFilter {df : List Order} {x : Order} :
    x ∈ validTypeFilter df ↔ x ∈ df ∧ 1 < nuniqueStations df x.type_id := by
  simp [validTypeFilter, List.mem_filter]

theorem mem_processOrders {df : List Order} {q : QuoteRow} :
    q ∈ processOrders df ↔
      ∃ k ∈ orderKeys (validTypeFilter df), ∃ o rest,
        keyGroup (validTypeFilter df) k.1 k.2 = o :: rest ∧ q = reduceGroup o rest := by
  simp only [processOrders, List.mem_filterMap]
  constructor
  · rintro ⟨k, hk, hsome⟩
    cases hg : keyGroup (validTypeFilter df) k.1 k.2 with
    | nil =>
      rw [hg] at hsome
      simp at hsome
    | cons o rest =>
      rw [hg] at hsome
      simp only [Option.some.injEq] at hsome
      exact ⟨k, hk, o, rest, hg, hsome.symm⟩
  · rintro ⟨k, hk, o, rest, hg, rfl⟩
    refine ⟨k, hk, ?_⟩
    rw [hg]

theorem reduceGroup_mem_of_keyGroup {df : List Order} {t s : ℤ} {o : Order}
    {rest : List Order} (hg : keyGroup df t s = o :: rest) :
    headlineIn o rest ∈ df ∧ (headlineIn o rest).type_id = t ∧
      (headlineIn o rest).station_id = s := by
  have hmem : headlineIn o rest ∈ keyGroup df t s := by
    rw [hg]
    exact headlineIn_mem o rest
  exact mem_keyGroup.mp hmem

theorem reduceGroup_type_id {df : List Order} {t s : ℤ} {o : Order}
    {rest : List Order} (hg : keyGroup df t s = o :: rest) :
    (reduceGroup o rest).type_id = t :=
  (reduceGroup_mem_of_keyGroup hg).2.1

theorem reduceGroup_station_id {df : List Order} {t s : ℤ} {o : Order}
    {rest : List Order} (hg : keyGroup df t s = o :: rest) :
    (reduceGroup o rest).station_id = s :=
  (reduceGroup_mem_of_keyGroup hg).2.2

theorem reduceGroup_price_eq_min (o : Order) (rest : List Order) :
    (reduceGroup o rest).price = minPriceIn o rest :=
  headlineIn_price o rest

theorem supplyWithin_cons (m : ℚ) (o : Order) (rest : List Order) :
    supplyWithin m (o :: rest) =
      (((o :: rest).filter fun x => x.price ≤ minPriceIn o rest * (1 + m)).map
        Order.volume_remain).sum := rfl

/-! ### Pair Generator lemmas -/

theorem firstAtStation_some {g : List QuoteRow} {s : ℤ} {q : QuoteRow}
    (h : firstAtStation g s = some q) : q ∈ g ∧ q.station_id = s := by
  unfold firstAtStation at h
  cases hf : g.filter fun x => x.station_id == s with
  | nil =>
    rw [hf] at h
    simp at h
  | cons x xs =>
    rw [hf] at h
    simp only [List.head?_cons, Option.some.injEq] at h
    have hx : x ∈ g.filter fun y => y.station_id == s := by
      rw [hf]
      exact List.mem_cons_self _ _
    rcases List.mem_filter.mp hx with ⟨hg2, hs2⟩
    subst h
    exact ⟨hg2, by simpa using hs2⟩

theorem firstAtStation_eq_of_uniq {g : List QuoteRow} {s : ℤ} {q : QuoteRow}
    (hmem : q ∈ g) (hs : q.station_id = s)
    (huniq : ∀ x ∈ g, x.station_id = s → x = q) :
    firstAtStation g s = some q := by
  unfold firstAtStation
  cases hf : g.filter fun x => x.station_id == s with
  | nil =>
    exfalso
    have hq : q ∈ g.filter fun x => x.station_id == s :=
      List.mem_filter.mpr ⟨hmem, by simp [hs]⟩
    rw [hf] at hq
    simp at hq
  | cons x xs =>
    have hx : x ∈ g.filter fun y => y.station_id == s := by
      rw [hf]
      exact List.mem_cons_self _ _
    rcases List.mem_filter.mp hx with ⟨hg2, hs2⟩
    have hxq : x = q := huniq x hg2 (by simpa using hs2)
    rw [List.head?_cons, hxq]

theorem mem_itemGroup {df : List QuoteRow} {t : ℤ} {x : QuoteRow} :
    x ∈ (df.filter fun q => q.type_id == t) ↔ x ∈ df ∧ x.type_id = t := by
  simp [List.mem_filter]

theorem mem_uniqueTypeIds {df : List QuoteRow} {t : ℤ} :
    t ∈ uniqueTypeIds df ↔ ∃ q ∈ df, q.type_id = t := by
  simp only [uniqueTypeIds, mem_sortBy, List.mem_dedup, List.mem_map]

theorem mem_itemPairs_forward {df : List QuoteRow} {t : ℤ} {a b : QuoteRow}
    (h : (a, b) ∈ itemPairs df t) :
    a ∈ df ∧ b ∈ df ∧ a.type_id = t ∧ b.type_id = t ∧ a.station_id ≠ b.station_id := by
  unfold itemPairs at h
  split at h
  · simp at h
  · rcases List.mem_filterMap.mp h with ⟨p, hp, hfp⟩
    rcases mem_permPairs.mp hp with ⟨hp1, hp2, hpne⟩
    cases h1 : firstAtStation (df.filter fun q => q.type_id == t) p.1 with
    | none =>
      rw [h1] at hfp
      cases h2 : firstAtStation (df.filter fun q => q.type_id == t) p.2 with
      | none => rw [h2] at hfp; simp at hfp
      | some y => rw [h2] at hfp; simp at hfp
    | some x =>
      rw [h1] at hfp
      cases h2 : firstAtStation (df.filter fun q => q.type_id == t) p.2 with
      | none => rw [h2] at hfp; simp at hfp
      | some y =>
        rw [h2] at hfp
        simp only [Option.some.injEq, Prod.mk.injEq] at hfp
        obtain ⟨rfl, rfl⟩ := hfp
        rcases firstAtStation_some h1 with ⟨hxg, hxs⟩
        rcases firstAtStation_some h2 with ⟨hyg, hys⟩
        rcases mem_itemGroup.mp hxg with ⟨hxdf, hxt⟩
        rcases mem_itemGroup.mp hyg with ⟨hydf, hyt⟩
        refine ⟨hxdf, hydf, hxt, hyt, ?_⟩
        rw [hxs, hys]
        exact fun hc => hpne (hc ▸ rfl)

theorem mem_itemPairs_backward {df : List QuoteRow} (hKU : KeyUnique df)
    {a b : QuoteRow} (ha : a ∈ df) (hb : b ∈ df) (ht : a.type_id = b.type_id)
    (hs : a.station_id ≠ b.station_id) :
    (a, b) ∈ itemPairs df a.type_id := by
  have hag : a ∈ df.filter fun q => q.type_id == a.type_id :=
    mem_itemGroup.mpr ⟨ha, rfl⟩
  have hbg : b ∈ df.filter fun q => q.type_id == a.type_id :=
    mem_itemGroup.mpr ⟨hb, ht.symm⟩
  have hsa : a.station_id ∈ uniqueFirst ((df.filter fun q => q.type_id == a.type_id).map
      QuoteRow.station_id) := by
    rw [mem_uniqueFirst]
    exact List.mem_map.mpr ⟨a, hag, rfl⟩
  have hsb : b.station_id ∈ uniqueFirst ((df.filter fun q => q.type_id == a.type_id).map
      QuoteRow.station_id) := by
    rw [mem_uniqueFirst]
    exact List.mem_map.mpr ⟨b, hbg, rfl⟩
  have hlen : 2 ≤ (uniqueFirst ((df.filter fun q => q.type_id == a.type_id).map
      QuoteRow.station_id)).length :=
    two_le_length_of_nodup (nodup_uniqueFirst _) hsa hsb hs
  have hfa : firstAtStation (df.filter fun q => q.type_id == a.type_id) a.station_id = some a := by
    refine firstAtStation_eq_of_uniq hag rfl ?_
    intro x hx hxs
    rcases mem_itemGroup.mp hx with ⟨hxdf, hxt⟩
    exact hKU x hxdf a ha (hxt.trans rfl) hxs
  have hfb : firstAtStation (df.filter fun q => q.type_id == a.type_id) b.station_id = some b := by
    refine firstAtStation_eq_of_uniq hbg rfl ?_
    intro x hx hxs
    rcases mem_itemGroup.mp hx with ⟨hxdf, hxt⟩
    exact hKU x hxdf b hb (hxt.trans ht) hxs
  unfold itemPairs
  rw [if_neg (by omega)]
  refine List.mem_filterMap.mpr ⟨(a.station_id, b.station_id), ?_, ?_⟩
  · exact mem_permPairs.mpr ⟨hsa, hsb, fun hc => hs hc.symm⟩
  · rw [hfa, hfb]

theorem mem_candidatePairs {df : List QuoteRow} (hKU : KeyUnique df) {a b : QuoteRow} :
    (a, b) ∈ candidatePairs df ↔
      a ∈ df ∧ b ∈ df ∧ a.type_id = b.type_id ∧ a.station_id ≠ b.station_id := by
  constructor
  · intro h
    rcases List.mem_flatMap.mp h with ⟨t, _, hblock⟩
    rcases mem_itemPairs_forward hblock with ⟨h1, h2, h3, h4, h5⟩
    exact ⟨h1, h2, h3.trans h4.symm, h5⟩
  · rintro ⟨ha, hb, ht, hs⟩
    refine List.mem_flatMap.mpr ⟨a.type_id, ?_, mem_itemPairs_backward hKU ha hb ht hs⟩
    exact mem_uniqueTypeIds.mpr ⟨a, ha, rfl⟩

theorem candidatePairs_fst_mem {df : List QuoteRow} {p : QuoteRow × QuoteRow}
    (h : p ∈ candidatePairs df) : p.1 ∈ df := by
  obtain ⟨a, b⟩ := p
  rcases List.mem_flatMap.mp h with ⟨t, _, hblock⟩
  exact (mem_itemPairs_forward hblock).1

theorem emitPair_type_id {a b : QuoteRow} {r : TradeRow}
    (h : emitPair a b = some r) : r.type_id = a.type_id := by
  unfold emitPair at h
  split at h
  · simp only [Option.some.injEq] at h
    subst h
    rfl
  · simp at h

theorem uniqueTypeIds_sorted (df : List QuoteRow) :
    (uniqueTypeIds df).Pairwise fun x y : ℤ => x ≤ y := by
  have h := @pairwise_sortBy ℤ (fun a b : ℤ => decide (a ≤ b))
    (fun a b c h1 h2 => by
      simp only [decide_eq_true_eq] at h1 h2 ⊢
      omega)
    (fun a b => by
      simp only [decide_eq_true_eq]
      omega)
    ((df.map QuoteRow.type_id).dedup)
  exact h.imp fun hab => of_decide_eq_true hab

theorem itemPairs_fst_type {df : List QuoteRow} {t : ℤ} {p : QuoteRow × QuoteRow}
    (h : p ∈ itemPairs df t) : p.1.type_id = t := by
  obtain ⟨a, b⟩ := p
  exact (mem_itemPairs_forward h).2.2.1

theorem candidatePairs_type_sorted (df : List QuoteRow) :
    (candidatePairs df).Pairwise fun p q => p.1.type_id ≤ q.1.type_id := by
  unfold candidatePairs
  apply pairwise_flatMap_of
  · refine (uniqueTypeIds_sorted df).imp ?_
    intro t1 t2 hle p hp q hq
    rw [itemPairs_fst_type hp, itemPairs_fst_type hq]
    exact hle
  · intro t ht
    apply List.pairwise_of_forall_mem_list
    intro p hp q hq
    rw [itemPairs_fst_type hp, itemPairs_fst_type hq]

/-! ### Historical enrichment lemmas -/

theorem pickLatestBy_eq_none {d : α → ℤ} {l : List α} :
    pickLatestBy d l = none ↔ l = [] := by
  cases l with
  | nil => simp [pickLatestBy]
  | cons x rest =>
    simp only [List.cons_ne_nil, iff_false]
    cases hr : pickLatestBy d rest with
    | none => simp [pickLatestBy, hr]
    | some m =>
      simp only [pickLatestBy, hr]
      split <;> simp

theorem pickLatestBy_mem {d : α → ℤ} {l : List α} {m : α}
    (h : pickLatestBy d l = some m) : m ∈ l := by
  induction l generalizing m with
  | nil => simp [pickLatestBy] at h
  | cons x rest ih =>
    cases hr : pickLatestBy d rest with
    | none =>
      simp only [pickLatestBy, hr, Option.some.injEq] at h
      exact h ▸ List.mem_cons_self _ _
    | some m0 =>
      simp only [pickLatestBy, hr] at h
      split at h
      · simp only [Option.some.injEq] at h
        subst h
        exact List.mem_cons_of_mem _ (ih hr)
      · simp only [Option.some.injEq] at h
        exact h ▸ List.mem_cons_self _ _

theorem pickLatestBy_max {d : α → ℤ} {l : List α} {m : α}
    (h : pickLatestBy d l = some m) : ∀ x ∈ l, d x ≤ d m := by
  induction l generalizing m with
  | nil => simp [pickLatestBy] at h
  | cons y rest ih =>
    intro x hx
    cases hr : pickLatestBy d rest with
    | none =>
      have hrest : rest = [] := pickLatestBy_eq_none.mp hr
      simp only [pickLatestBy, hr, Option.some.injEq] at h
      subst hrest
      rcases List.mem_singleton.mp hx with rfl
      exact h ▸ le_refl _
    | some m0 =>
      simp only [pickLatestBy, hr] at h
      rcases List.mem_cons.mp hx with rfl | hx2
      · split at h
        · rename_i hlt
          simp only [Option.some.injEq] at h
          subst h
          exact hlt.le
        · simp only [Option.some.injEq] at h
          subst h
          exact le_refl _
      · have hle := ih hr x hx2
        split at h
        · simp only [Option.some.injEq] at h
          subst h
          exact hle
        · rename_i hlt
          simp only [Option.some.injEq] at h
          subst h
          exact le_trans hle (not_lt.mp hlt)

theorem mem_priceFilter {recs : List PriceRec} {t l : ℤ} {r : PriceRec} :
    r ∈ (recs.filter fun x => x.type_id == t && x.location_id == l) ↔
      r ∈ recs ∧ r.type_id = t ∧ r.location_id = l := by
  simp [List.mem_filter]

theorem mostRecentPrice_some {recs : List PriceRec} {t l : ℤ} {m : PriceRec}
    (h : mostRecentPrice recs t l = some m) :
    m ∈ recs ∧ m.type_id = t ∧ m.location_id = l ∧
      ∀ r ∈ recs, r.type_id = t → r.location_id = l → r.date ≤ m.date := by
  unfold mostRecentPrice at h
  rcases mem_priceFilter.mp (pickLatestBy_mem h) with ⟨h1, h2, h3⟩
  refine ⟨h1, h2, h3, ?_⟩
  intro r hr ht hl
  exact pickLatestBy_max h r (mem_priceFilter.mpr ⟨hr, ht, hl⟩)

theorem mostRecentPrice_none {recs : List PriceRec} {t l : ℤ}
    (h : mostRecentPrice recs t l = none) :
    ∀ r ∈ recs, r.type_id ≠ t ∨ r.location_id ≠ l := by
  unfold mostRecentPrice at h
  have hnil := pickLatestBy_eq_none.mp h
  intro r hr
  by_contra hc
  push_neg at hc
  have : r ∈ (recs.filter fun x => x.type_id == t && x.location_id == l) :=
    mem_priceFilter.mpr ⟨hr, hc.1, hc.2⟩
  rw [hnil] at this
  simp at this

theorem mem_volumeFilter {recs : List VolumeRec} {t l : ℤ} {r : VolumeRec} :
    r ∈ (recs.filter fun x => x.type_id == t && x.location_id == l) ↔
      r ∈ recs ∧ r.type_id = t ∧ r.location_id = l := by
  simp [List.mem_filter]

theorem mostRecentVolume_some {recs : List VolumeRec} {t l : ℤ} {m : VolumeRec}
    (h : mostRecentVolume recs t l = some m) :
    m ∈ recs ∧ m.type_id = t ∧ m.location_id = l ∧
      ∀ r ∈ recs, r.type_id = t → r.location_id = l → r.date ≤ m.date := by
  unfold mostRecentVolume at h
  rcases mem_volumeFilter.mp (pickLatestBy_mem h) with ⟨h1, h2, h3⟩
  refine ⟨h1, h2, h3, ?_⟩
  intro r hr ht hl
  exact pickLatestBy_max h r (mem_volumeFilter.mpr ⟨hr, ht, hl⟩)

theorem mostRecentVolume_none {recs : List VolumeRec} {t l : ℤ}
    (h : mostRecentVolume recs t l = none) :
    ∀ r ∈ recs, r.type_id ≠ t ∨ r.location_id ≠ l := by
  unfold mostRecentVolume at h
  have hnil := pickLatestBy_eq_none.mp h
  intro r hr
  by_contra hc
  push_neg at hc
  have : r ∈ (recs.filter fun x => x.type_id == t && x.location_id == l) :=
    mem_volumeFilter.mpr ⟨hr, hc.1, hc.2⟩
  rw [hnil] at this
  simp at this

/-! ### Claim theorems -/

/-- C6: when the required raw-order source is absent the main driver reports
a definite failure (sys.exit 1), while any present orders table, in
particular an empty one, yields a written output artifact, the empty case
being an empty well-formed table rather than an error. -/
theorem pipeline_missing_source_failure :
    (∀ ps vs, mainPipeline none ps vs = .exitFailure) ∧
    (∀ df ps vs, ∃ out, mainPipeline (some df) ps vs = .wroteOutput out) ∧
    (∀ ps vs, mainPipeline (some []) ps vs = .wroteOutput (.plain [])) := by
  refine ⟨fun ps vs => rfl, ?_, fun ps vs => rfl⟩
  intro df ps vs
  simp only [mainPipeline]
  by_cases h : df.length = 0
  · rw [if_pos h]
    exact ⟨.plain [], rfl⟩
  · rw [if_neg h]
    by_cases h2 : genLength (generateFull df ps vs) = 0
    · rw [if_pos h2]
      exact ⟨.plain [], rfl⟩
    · rw [if_neg h2]
      exact ⟨generateFull df ps vs, rfl⟩

/-- C7: the Quote Reducer maps empty input to empty output, and likewise any
input in which no item spans two or more hubs, with no error value. -/
theorem quote_reducer_empty_tolerance :
    processOrders [] = [] ∧
    ∀ df : List Order, (∀ o ∈ df, nuniqueStations df o.type_id < 2) →
      processOrders df = [] := by
  refine ⟨rfl, ?_⟩
  intro df h
  have hv : validTypeFilter df = [] := by
    unfold validTypeFilter
    rw [List.filter_eq_nil_iff]
    intro o ho
    simp only [decide_eq_true_eq, not_lt]
    have := h o ho
    omega
  unfold processOrders
  rw [hv]
  rfl

theorem quote_reducer_empty_tolerance_witness :
    (∀ o ∈ ([⟨100, 7, 5, 60003760⟩] : List Order),
        nuniqueStations [⟨100, 7, 5, 60003760⟩] o.type_id < 2) ∧
      processOrders [⟨100, 7, 5, 60003760⟩] = [] :=
  ⟨by with_unfolding_all decide,
    quote_reducer_empty_tolerance.2 _ (by with_unfolding_all decide)⟩

/-- C2: every quote row the reducer emits carries as best price the minimum
price of its (item, hub) group, and as supply the sum of remaining
quantity over exactly the orders of the group priced at or below best
price times 1.10, boundary inclusive. -/
theorem quote_reducer_group_spec (df : List Order) (q : QuoteRow)
    (hq : q ∈ processOrders df) :
    q.price ∈ (keyGroup (validTypeFilter df) q.type_id q.station_id).map Order.price ∧
    (∀ p ∈ (keyGroup (validTypeFilter df) q.type_id q.station_id).map Order.price,
      q.price ≤ p) ∧
    q.supply = (((keyGroup (validTypeFilter df) q.type_id q.station_id).filter
        fun o => o.price ≤ q.price * (11/10)).map Order.volume_remain).sum := by
  rcases mem_processOrders.mp hq with ⟨k, hk, o, rest, hg, rfl⟩
  have ht := reduceGroup_type_id hg
  have hs := reduceGroup_station_id hg
  rw [ht, hs, hg]
  have harith : minPriceIn o rest * (1 + depthMargin) = (reduceGroup o rest).price * (11/10) := by
    rw [reduceGroup_price_eq_min]
    norm_num [depthMargin]
  refine ⟨?_, ?_, ?_⟩
  · rw [show (reduceGroup o rest).price = (headlineIn o rest).price from rfl]
    exact List.mem_map.mpr ⟨headlineIn o rest, headlineIn_mem o rest, rfl⟩
  · intro p hp
    rcases List.mem_map.mp hp with ⟨x, hx, rfl⟩
    rw [reduceGroup_price_eq_min]
    exact minPriceIn_le o rest x hx
  · rw [show (reduceGroup o rest).supply = supplyWithin depthMargin (o :: rest) from rfl,
      supplyWithin_cons]
    simp only [harith]

theorem quote_reducer_group_spec_witness :
    quoteA1 ∈ processOrders ordersA ∧
    (quoteA1.price ∈ (keyGroup (validTypeFilter ordersA) quoteA1.type_id
        quoteA1.station_id).map Order.price ∧
    (∀ p ∈ (keyGroup (validTypeFilter ordersA) quoteA1.type_id
        quoteA1.station_id).map Order.price, quoteA1.price ≤ p) ∧
    quoteA1.supply = (((keyGroup (validTypeFilter ordersA) quoteA1.type_id
        quoteA1.station_id).filter fun o => o.price ≤ quoteA1.price * (11/10)).map
        Order.volume_remain).sum) :=
  ⟨by with_unfolding_all decide,
    quote_reducer_group_spec ordersA quoteA1 (by with_unfolding_all decide)⟩

/-- C5: on order tables with non-negative prices, the prices the data model
admits, every emitted quote satisfies supply greater than or equal to the
headline remaining quantity, since the minimum-price order lies inside
its own depth threshold. -/
theorem quote_supply_ge_headline (df : List Order)
    (hpos : ∀ o ∈ df, 0 ≤ o.price) :
    ∀ q ∈ processOrders df, q.volume_remain ≤ q.supply := by
  intro q hq
  rcases mem_processOrders.mp hq with ⟨k, hk, o, rest, hg, rfl⟩
  have hmem : headlineIn o rest ∈ keyGroup (validTypeFilter df) k.1 k.2 := by
    rw [hg]
    exact headlineIn_mem o rest
  have hdf : headlineIn o rest ∈ df := (mem_validTypeFilter.mp (mem_keyGroup.mp hmem).1).1
  have hminp : 0 ≤ minPriceIn o rest := by
    rw [← headlineIn_price]
    exact hpos _ hdf
  have hfilter : headlineIn o rest ∈ (o :: rest).filter
      fun x => x.price ≤ minPriceIn o rest * (1 + depthMargin) := by
    refine List.mem_filter.mpr ⟨headlineIn_mem o rest, ?_⟩
    simp only [decide_eq_true_eq]
    rw [headlineIn_price]
    calc minPriceIn o rest = minPriceIn o rest * 1 := (mul_one _).symm
      _ ≤ minPriceIn o rest * (1 + depthMargin) := by
          apply mul_le_mul_of_nonneg_left _ hminp
          norm_num [depthMargin]
  show (reduceGroup o rest).volume_remain ≤ (reduceGroup o rest).supply
  rw [show (reduceGroup o rest).supply = supplyWithin depthMargin (o :: rest) from rfl,
    supplyWithin_cons]
  exact List.single_le_sum (fun x _ => Nat.zero_le x) _
    (List.mem_map.mpr ⟨headlineIn o rest, hfilter, rfl⟩)

theorem quote_supply_ge_headline_witness :
    (∀ o ∈ ordersA, 0 ≤ o.price) ∧
    quoteA1 ∈ processOrders ordersA ∧
    quoteA1.volume_remain ≤ quoteA1.supply :=
  ⟨by with_unfolding_all decide, by with_unfolding_all decide,
    quote_supply_ge_headline ordersA (by with_unfolding_all decide) quoteA1
      (by with_unfolding_all decide)⟩

/-- C9: with the input order table fixed and prices non-negative, the supply
of any (item, hub) group is monotone non-decreasing in the depth margin. -/
theorem supply_monotone_in_depth (df : List Order) (t s : ℤ) (m1 m2 : ℚ)
    (hpos : ∀ o ∈ df, 0 ≤ o.price) (hm : m1 ≤ m2) :
    supplyWithin m1 (keyGroup df t s) ≤ supplyWithin m2 (keyGroup df t s) := by
  cases hg : keyGroup df t s with
  | nil => simp [supplyWithin]
  | cons o rest =>
    have hmem : headlineIn o rest ∈ df := by
      have hmg : headlineIn o rest ∈ keyGroup df t s := by
        rw [hg]
        exact headlineIn_mem o rest
      exact (mem_keyGroup.mp hmg).1
    have hminp : 0 ≤ minPriceIn o rest := by
      rw [← headlineIn_price]
      exact hpos _ hmem
    rw [supplyWithin_cons, supplyWithin_cons]
    apply sum_filter_le_of_imp
    intro x hx hpx
    simp only [decide_eq_true_eq] at hpx ⊢
    refine le_trans hpx ?_
    exact mul_le_mul_of_nonneg_left (add_le_add_left hm 1) hminp

theorem supply_monotone_in_depth_witness :
    (∀ o ∈ ordersA, 0 ≤ o.price) ∧ (0 : ℚ) ≤ 1/10 ∧
    supplyWithin 0 (keyGroup ordersA 10 1) ≤ supplyWithin (1/10) (keyGroup ordersA 10 1) :=
  ⟨by with_unfolding_all decide, by with_unfolding_all decide,
    supply_monotone_in_depth ordersA 10 1 0 (1/10) (by with_unfolding_all decide)
      (by with_unfolding_all decide)⟩

/-- C3: an item spanning fewer than two distinct hubs yields no quote row,
and an item spanning at least two distinct hubs yields at least one. -/
theorem single_hub_discard_and_retention (df : List Order) (t : ℤ) :
    (nuniqueStations df t < 2 → ∀ q ∈ processOrders df, q.type_id ≠ t) ∧
    (2 ≤ nuniqueStations df t → ∃ q ∈ processOrders df, q.type_id = t) := by
  constructor
  · intro hlt q hq
    rcases mem_processOrders.mp hq with ⟨k, hk, o, rest, hg, rfl⟩
    have hmem : headlineIn o rest ∈ keyGroup (validTypeFilter df) k.1 k.2 := by
      rw [hg]
      exact headlineIn_mem o rest
    have hvdf := (mem_keyGroup.mp hmem).1
    have hnu := (mem_validTypeFilter.mp hvdf).2
    have hht : (headlineIn o rest).type_id = k.1 := (mem_keyGroup.mp hmem).2.1
    intro hqt
    rw [show (reduceGroup o rest).type_id = (headlineIn o rest).type_id from rfl] at hqt
    rw [hqt] at hnu
    omega
  · intro h2
    have hne : (df.filter fun o => o.type_id == t) ≠ [] := by
      intro hnil
      unfold nuniqueStations at h2
      rw [hnil] at h2
      simp at h2
    obtain ⟨o0, ho0⟩ := List.exists_mem_of_ne_nil _ hne
    rcases List.mem_filter.mp ho0 with ⟨hodf, hot⟩
    have hot2 : o0.type_id = t := by simpa using hot
    have hov : o0 ∈ validTypeFilter df := by
      refine List.mem_filter.mpr ⟨hodf, ?_⟩
      simp only [decide_eq_true_eq]
      rw [hot2]
      omega
    have hkey : (t, o0.station_id) ∈ orderKeys (validTypeFilter df) := by
      unfold orderKeys
      rw [mem_sortBy, List.mem_dedup]
      exact List.mem_map.mpr ⟨o0, hov, by rw [hot2]⟩
    have hgne : keyGroup (validTypeFilter df) t o0.station_id ≠ [] := by
      intro hnil
      have hmo : o0 ∈ keyGroup (validTypeFilter df) t o0.station_id :=
        mem_keyGroup.mpr ⟨hov, hot2, rfl⟩
      rw [hnil] at hmo
      simp at hmo
    cases hg : keyGroup (validTypeFilter df) t o0.station_id with
    | nil => exact absurd hg hgne
    | cons o rest =>
      refine ⟨reduceGroup o rest, ?_, reduceGroup_type_id hg⟩
      exact mem_processOrders.mpr ⟨(t, o0.station_id), hkey, o, rest, hg, rfl⟩

theorem single_hub_discard_and_retention_witness :
    2 ≤ nuniqueStations ordersA 10 ∧ ∃ q ∈ processOrders ordersA, q.type_id = 10 :=
  ⟨by with_unfolding_all decide,
    (single_hub_discard_and_retention ordersA 10).2 (by with_unfolding_all decide)⟩

/-- C1: on a key-unique quote table a trade row is emitted exactly for the
ordered pairs of distinct hubs carrying the same item whose margin
(destination price minus origin price over origin price) reaches the 0.10
threshold: no emitted row falls below it and no qualifying pair is
omitted. -/
theorem trade_pair_characterization (df : List QuoteRow) (hKU : KeyUnique df)
    (r : TradeRow) :
    r ∈ generateTradePairs df ↔
      ∃ a ∈ df, ∃ b ∈ df, a.type_id = b.type_id ∧ a.station_id ≠ b.station_id ∧
        marginThreshold ≤ (b.price - a.price) / a.price ∧ r = tradeRowOf a b := by
  unfold generateTradePairs
  rw [List.mem_filterMap]
  constructor
  · rintro ⟨⟨a, b⟩, hp, he⟩
    rcases (mem_candidatePairs hKU).mp hp with ⟨ha, hb, ht, hs⟩
    unfold emitPair at he
    split at he
    · rename_i hm
      simp only [Option.some.injEq] at he
      exact ⟨a, ha, b, hb, ht, hs, hm, he.symm⟩
    · simp at he
  · rintro ⟨a, ha, b, hb, ht, hs, hm, rfl⟩
    refine ⟨(a, b), (mem_candidatePairs hKU).mpr ⟨ha, hb, ht, hs⟩, ?_⟩
    unfold emitPair
    rw [if_pos (show marginThreshold ≤ marginOf a b from hm)]

theorem trade_pair_characterization_witness :
    KeyUnique quotesC ∧
    (rowD ∈ generateTradePairs quotesC ↔
      ∃ a ∈ quotesC, ∃ b ∈ quotesC, a.type_id = b.type_id ∧
        a.station_id ≠ b.station_id ∧
        marginThreshold ≤ (b.price - a.price) / a.price ∧ rowD = tradeRowOf a b) :=
  ⟨by with_unfolding_all decide,
    trade_pair_characterization quotesC (by with_unfolding_all decide) rowD⟩

/-- C10: when every price of the quote table is positive, as the data model
requires, the start price dividing the margin computation is non-zero for
every candidate pair the generator evaluates. -/
theorem candidate_margin_denominator_safe (df : List QuoteRow)
    (hpos : ∀ q ∈ df, 0 < q.price) :
    ∀ p ∈ candidatePairs df, p.1.price ≠ 0 := by
  intro p hp
  exact (hpos p.1 (candidatePairs_fst_mem hp)).ne'

theorem candidate_margin_denominator_safe_witness :
    (∀ q ∈ quotesC, 0 < q.price) ∧
    (qC1, qC2) ∈ candidatePairs quotesC ∧ qC1.price ≠ 0 :=
  ⟨by with_unfolding_all decide, by with_unfolding_all decide,
    candidate_margin_denominator_safe quotesC (by with_unfolding_all decide)
      (qC1, qC2) (by with_unfolding_all decide)⟩

/-- C4 counterexample: generate_trade_pairs emits rows in enumeration order
and applies no sort, so on a table whose first item has the smaller
margin the output is not sorted by profit margin descending; the emitted
dictionaries also store no profit_margin field, the margin is only
recomputable from the two price columns. -/
theorem trade_pairs_not_sorted_by_margin :
    ¬ sortedByMarginDesc (generateTradePairs quotesB) := by
  with_unfolding_all decide

/-- C4 amended: every emitted row reaches the margin threshold when its
margin is recomputed from its price columns, and the output order is the
deterministic enumeration order, ascending in item id, rather than a sort
by profit margin. -/
theorem trade_pairs_order_spec (df : List QuoteRow) :
    (∀ r ∈ generateTradePairs df, marginThreshold ≤ rowMargin r) ∧
    (generateTradePairs df).Pairwise fun r1 r2 => r1.type_id ≤ r2.type_id := by
  constructor
  · intro r hr
    rcases List.mem_filterMap.mp hr with ⟨⟨a, b⟩, hp, he⟩
    unfold emitPair at he
    split at he
    · rename_i hm
      simp only [Option.some.injEq] at he
      subst he
      exact hm
    · simp at he
  · unfold generateTradePairs
    apply pairwise_filterMap_of
    refine (candidatePairs_type_sorted df).imp ?_
    intro p q hle x hx y hy
    rw [emitPair_type_id hx, emitPair_type_id hy]
    exact hle

theorem trade_pairs_order_spec_witness :
    (⟨1, 1, 2, 100, 120, 1, 1, 1, 1⟩ : TradeRow) ∈ generateTradePairs quotesB ∧
    marginThreshold ≤ rowMargin ⟨1, 1, 2, 100, 120, 1, 1, 1, 1⟩ :=
  ⟨by with_unfolding_all decide,
    (trade_pairs_order_spec quotesB).1 _ (by with_unfolding_all decide)⟩

/-- C8: enrichment is a left join onto the destination (item, hub) key that
drops no trade pair row; the joined record, when present, is a matching
historical record of maximal date for that key; a row without a matching
record keeps none in every historical field; and a missing or unreadable
historical source leaves the pair table plain and unenriched rather than
failing. -/
theorem historical_enrichment_spec (tp : List TradeRow) (ps : List PriceRec)
    (vs : List VolumeRec) :
    ((addHistoricalData tp ps vs).map EnrichedRow.base = tp) ∧
    (∀ e ∈ addHistoricalData tp ps vs,
      ((∃ rec ∈ ps, rec.type_id = e.base.type_id ∧
          rec.location_id = e.base.dest_station_id ∧
          (∀ r2 ∈ ps, r2.type_id = e.base.type_id →
            r2.location_id = e.base.dest_station_id → r2.date ≤ rec.date) ∧
          e.sell_price_low_dest = some rec.sell_price_low ∧
          e.sell_price_avg_dest = some rec.sell_price_avg) ∨
        ((∀ r2 ∈ ps, r2.type_id ≠ e.base.type_id ∨
            r2.location_id ≠ e.base.dest_station_id) ∧
          e.sell_price_low_dest = none ∧ e.sell_price_avg_dest = none)) ∧
      ((∃ rec ∈ vs, rec.type_id = e.base.type_id ∧
          rec.location_id = e.base.dest_station_id ∧
          (∀ r2 ∈ vs, r2.type_id = e.base.type_id →
            r2.location_id = e.base.dest_station_id → r2.date ≤ rec.date) ∧
          e.sell_volume_avg_dest = some rec.sell_volume_avg) ∨
        ((∀ r2 ∈ vs, r2.type_id ≠ e.base.type_id ∨
            r2.location_id ≠ e.base.dest_station_id) ∧
          e.sell_volume_avg_dest = none))) ∧
    (∀ (df : List QuoteRow) (vs2 : Option (List VolumeRec)),
      generateFull df none vs2 = .plain (generateTradePairs df)) ∧
    (∀ (df : List QuoteRow) (ps2 : Option (List PriceRec)),
      generateFull df ps2 none = .plain (generateTradePairs df)) := by
  refine ⟨?_, ?_, ?_, ?_⟩
  · unfold addHistoricalData
    rw [List.map_map]
    exact List.map_id tp
  · intro e he
    unfold addHistoricalData at he
    rcases List.mem_map.mp he with ⟨r, hr, rfl⟩
    dsimp only
    constructor
    · cases hmp : mostRecentPrice ps r.type_id r.dest_station_id with
      | some rec =>
        left
        rcases mostRecentPrice_some hmp with ⟨h1, h2, h3, h4⟩
        exact ⟨rec, h1, h2, h3, h4, rfl, rfl⟩
      | none =>
        right
        exact ⟨mostRecentPrice_none hmp, rfl, rfl⟩
    · cases hmv : mostRecentVolume vs r.type_id r.dest_station_id with
      | some rec =>
        left
        rcases mostRecentVolume_some hmv with ⟨h1, h2, h3, h4⟩
        exact ⟨rec, h1, h2, h3, h4, rfl⟩
      | none =>
        right
        exact ⟨mostRecentVolume_none hmv, rfl⟩
  · intro df vs2
    cases vs2 <;> rfl
  · intro df ps2
    cases ps2 <;> rfl

theorem historical_enrichment_spec_witness :
    rowDEnriched ∈ addHistoricalData [rowD] pricesD volumesD ∧
    (((∃ rec ∈ pricesD, rec.type_id = rowDEnriched.base.type_id ∧
        rec.location_id = rowDEnriched.base.dest_station_id ∧
        (∀ r2 ∈ pricesD, r2.type_id = rowDEnriched.base.type_id →
          r2.location_id = rowDEnriched.base.dest_station_id → r2.date ≤ rec.date) ∧
        rowDEnriched.sell_price_low_dest = some rec.sell_price_low ∧
        rowDEnriched.sell_price_avg_dest = some rec.sell_price_avg) ∨
      ((∀ r2 ∈ pricesD, r2.type_id ≠ rowDEnriched.base.type_id ∨
          r2.location_id ≠ rowDEnriched.base.dest_station_id) ∧
        rowDEnriched.sell_price_low_dest = none ∧
        rowDEnriched.sell_price_avg_dest = none)) ∧
    ((∃ rec ∈ volumesD, rec.type_id = rowDEnriched.base.type_id ∧
        rec.location_id = rowDEnriched.base.dest_station_id ∧
        (∀ r2 ∈ volumesD, r2.type_id = rowDEnriched.base.type_id →
          r2.location_id = rowDEnriched.base.dest_station_id → r2.date ≤ rec.date) ∧
        rowDEnriched.sell_volume_avg_dest = some rec.sell_volume_avg) ∨
      ((∀ r2 ∈ volumesD, r2.type_id ≠ rowDEnriched.base.type_id ∨
          r2.location_id ≠ rowDEnriched.base.dest_station_id) ∧
        rowDEnriched.sell_volume_avg_dest = none))) :=
  ⟨by with_unfolding_all decide,
    (historical_enrichment_spec [rowD] pricesD volumesD).2.1 rowDEnriched
      (by with_unfolding_all decide)⟩

end EveData
